import Mathlib

/-!
Verification of the clinical data-entry application (`src/App.tsx` plus
`src/types.ts`).  The React component is embedded shallowly: the pieces of
`useState` state become one `AppState` record, each state setter becomes a
pure state transformer, and nondeterministic environment values (the result
of `generateId` and of `Date.now()`) become explicit parameters.  JavaScript
truthiness of the `x || d` defaulting idiom is modelled exactly (the empty
string and the number 0 are falsy).
-/

/- Department enum from `src/types.ts`; the runtime values are strings. -/
namespace Department

def CARDIOLOGY : String := "Cardiology"

def NEUROLOGY : String := "Neurology"

def PEDIATRICS : String := "Pediatrics"

def GENERAL_OPD : String := "General OPD"

def ORTHOPEDICS : String := "Orthopedics"

def EMERGENCY : String := "Emergency"

end Department

/-- `MedicalRecord` from `src/types.ts`.  `status` holds the string
`"pending"` or `"uploaded"`; `department` holds a department string. -/
structure MedicalRecord where
  id : String
  patientName : String
  patientAge : Int
  department : String
  observations : String
  timestamp : Int
  status : String
  bonusEarned : Int
deriving DecidableEq, Repr

/-- The filter state `{ status?: string; department?: string }` of the
component; `none` models the field being `undefined`. -/
structure FilterState where
  status : Option String
  department : Option String
deriving DecidableEq, Repr

/-- The application state of the component: the `records`, `bonus`,
`bonusRate`, `theme` and `filter` pieces of `useState` state.  `theme` is
`Option String` because `setTheme` stores the raw (possibly `undefined`)
tool-call argument. -/
structure AppState where
  records : List MedicalRecord
  bonus : Int
  bonusRate : Int
  theme : Option String
  filter : FilterState
deriving DecidableEq, Repr

/-- The initial state set up by the `useState` calls. -/
def initState : AppState :=
  { records := [], bonus := 0, bonusRate := 50,
    theme := some "clinical", filter := { status := none, department := none } }

/-- JavaScript `x || d` for an optional string: `undefined` and `""` are
falsy. -/
def jsOrStr : Option String → String → String
  | none, d => d
  | some s, d => if s = "" then d else s

/-- JavaScript `x || d` for an optional number: `undefined` and `0` are
falsy. -/
def jsOrInt : Option Int → Int → Int
  | none, d => d
  | some n, d => if n = 0 then d else n

/-- `Partial<MedicalRecord>`: the fields of the argument of `addRecord`,
each possibly absent. -/
structure PartialRecord where
  patientName : Option String := none
  patientAge : Option Int := none
  department : Option String := none
  observations : Option String := none
deriving DecidableEq, Repr

/-- The record built by `addRecord` in `src/App.tsx` (lines 41-54), with the
`generateId()` result and the `Date.now()` reading passed in explicitly. -/
def mkRecord (newId : String) (now : Int) (data : PartialRecord) : MedicalRecord :=
  { id := newId,
    patientName := jsOrStr data.patientName "New Patient",
    patientAge := jsOrInt data.patientAge 0,
    department := jsOrStr data.department Department.GENERAL_OPD,
    observations := jsOrStr data.observations "",
    timestamp := now,
    status := "pending",
    bonusEarned := 0 }

/-- `addRecord` (src/App.tsx lines 41-54): builds the defaulted record,
prepends it to the list, and returns it. -/
def addRecord (newId : String) (now : Int) (data : PartialRecord) (s : AppState) :
    MedicalRecord × AppState :=
  let newRecord := mkRecord newId now data
  (newRecord, { s with records := newRecord :: s.records })

/-- The per-record transformation inside the `map` of `uploadAllPending`
(src/App.tsx lines 59-65). -/
def uploadRecord (rate : Int) (r : MedicalRecord) : MedicalRecord :=
  if r.status = "pending" then
    { r with status := "uploaded", bonusEarned := rate }
  else r

/-- `uploadAllPending` (src/App.tsx lines 56-70): maps `uploadRecord` over
the list, counting the pending records on the way, adds `count × rate` to
the bonus when `count > 0`, and returns the count.  The counter mutated
inside the `map` is embedded as `countP` of the same predicate. -/
def uploadAllPending (s : AppState) : Nat × AppState :=
  let rate := s.bonusRate
  let count := s.records.countP (fun r => r.status == "pending")
  let updated := s.records.map (uploadRecord rate)
  let newBonus := if count > 0 then s.bonus + (count : Int) * rate else s.bonus
  (count, { s with records := updated, bonus := newBonus })

/-- The `clear_all_data` effect `setRecords([])` (src/App.tsx line 209). -/
def clearAll (s : AppState) : AppState :=
  { s with records := [] }

/-- The `set_bonus_rate` effect `setBonusRate(rate)` (src/App.tsx line 203). -/
def setBonusRate (rate : Int) (s : AppState) : AppState :=
  { s with bonusRate := rate }

/-- The predicate of the `records.filter` inside the `filteredRecords` memo
(src/App.tsx lines 33-37).  A filter field that is `undefined` or the empty
string is falsy in JavaScript, so it imposes no constraint. -/
def keepsRecord (filter : FilterState) (r : MedicalRecord) : Bool :=
  if jsOrStr filter.status "" ≠ "" && r.status != jsOrStr filter.status "" then
    false
  else if jsOrStr filter.department "" ≠ "" && r.department != jsOrStr filter.department "" then
    false
  else true

/-- The `filteredRecords` memo (src/App.tsx lines 32-38). -/
def filteredRecords (filter : FilterState) (records : List MedicalRecord) :
    List MedicalRecord :=
  records.filter (keepsRecord filter)

/-- The argument payload `fc.args` of a tool call; every field is optional
because the payload is supplied by the remote service. -/
structure ToolArgs where
  patientName : Option String := none
  patientAge : Option Int := none
  department : Option String := none
  observations : Option String := none
  theme : Option String := none
  status : Option String := none
  rate : Option Int := none
deriving DecidableEq, Repr

/-- One tool-call dispatch from the `onmessage` handler (src/App.tsx lines
186-213): the `if`/`else if` chain on `fc.name`, producing the confirmation
string and the next state.  `result` starts as `"Done"` and is left alone by
an unrecognized name.  The `rate` argument is required by the declared
schema; a missing `rate` is embedded as 0. -/
def dispatch (newId : String) (now : Int) (name : String) (args : ToolArgs)
    (s : AppState) : String × AppState :=
  if name = "add_record" then
    let data : PartialRecord :=
      { patientName := args.patientName, patientAge := args.patientAge,
        department := args.department, observations := args.observations }
    ("Record added successfully.", (addRecord newId now data s).2)
  else if name = "set_ui_theme" then
    ("Theme updated to " ++ jsOrStr args.theme "undefined" ++ ".",
      { s with theme := args.theme })
  else if name = "apply_filter" then
    ("Filters applied.",
      { s with filter :=
        { status := if args.status = some "all" then none else args.status,
          department := if args.department = some "all" then none else args.department } })
  else if name = "set_bonus_rate" then
    let rate := args.rate.getD 0
    ("Bonus rate updated to " ++ toString rate ++ " Rupees.", setBonusRate rate s)
  else if name = "upload_and_earn" then
    let res := uploadAllPending s
    ("Uploaded " ++ toString res.1 ++ " records.", res.2)
  else if name = "clear_all_data" then
    ("All records cleared.", clearAll s)
  else
    ("Done", s)

/-- C4: `addRecord` never rejects: for every partial input it returns a
record whose missing fields are defaulted (name → "New Patient", age → 0,
department → General OPD, observations → empty), carrying the fresh id and
the creation timestamp, status `pending` and `bonusEarned` 0, and the new
record is prepended to the front of the record list. -/
theorem addRecord_defaults (newId : String) (now : Int) (data : PartialRecord)
    (s : AppState) (r : MedicalRecord) (s' : AppState)
    (h : addRecord newId now data s = (r, s')) :
    (data.patientName = none → r.patientName = "New Patient") ∧
    (data.patientAge = none → r.patientAge = 0) ∧
    (data.department = none → r.department = Department.GENERAL_OPD) ∧
    (data.observations = none → r.observations = "") ∧
    r.id = newId ∧ r.timestamp = now ∧ r.status = "pending" ∧
    r.bonusEarned = 0 ∧ s'.records = r :: s.records := by
  simp only [addRecord] at h
  obtain ⟨rfl, rfl⟩ := Prod.mk.injEq .. |>.mp h
  refine ⟨?_, ?_, ?_, ?_, rfl, rfl, rfl, rfl, rfl⟩
  · intro h1; simp [mkRecord, jsOrStr, h1]
  · intro h1; simp [mkRecord, jsOrInt, h1]
  · intro h1; simp [mkRecord, jsOrStr, h1]
  · intro h1; simp [mkRecord, jsOrStr, h1]

/-- Witness for C4 at a concrete empty partial input. -/
theorem addRecord_defaults_witness :
    (addRecord "id1" 5 {} initState).1.patientName = "New Patient" ∧
    (addRecord "id1" 5 {} initState).1.status = "pending" ∧
    (addRecord "id1" 5 {} initState).2.records =
      (addRecord "id1" 5 {} initState).1 :: initState.records := by
  obtain ⟨h1, _, _, _, _, _, h7, _, h9⟩ :=
    addRecord_defaults "id1" 5 {} initState _ _ rfl
  exact ⟨h1 rfl, h7, h9⟩

/-- C3: a tool-call dispatch whose action name is not one of the six
registered names returns the confirmation "Done" and leaves the whole
application state unchanged, for every argument payload. -/
theorem dispatch_unknown (name : String)
    (h : name ∉ ["add_record", "set_ui_theme", "apply_filter", "set_bonus_rate",
      "upload_and_earn", "clear_all_data"])
    (newId : String) (now : Int) (args : ToolArgs) (s : AppState) :
    dispatch newId now name args s = ("Done", s) := by
  simp only [List.mem_cons, List.not_mem_nil, or_false, not_or] at h
  obtain ⟨h1, h2, h3, h4, h5, h6⟩ := h
  simp [dispatch, h1, h2, h3, h4, h5, h6]

/-- Witness for C3 at a concrete unregistered name. -/
theorem dispatch_unknown_witness :
    dispatch "id1" 0 "frobnicate" {} initState = ("Done", initState) :=
  dispatch_unknown "frobnicate" (by decide) "id1" 0 {} initState

/-- A record that went through `uploadRecord` never has status "pending". -/
theorem uploadRecord_not_pending (rate : Int) (r : MedicalRecord) :
    (uploadRecord rate r).status ≠ "pending" := by
  by_cases h : r.status = "pending" <;> simp [uploadRecord, h]

/-- `uploadRecord` is the identity on non-pending records. -/
theorem uploadRecord_of_not_pending (rate : Int) (r : MedicalRecord)
    (h : r.status ≠ "pending") : uploadRecord rate r = r := by
  simp [uploadRecord, h]

/-- Applying `uploadRecord` a second time changes nothing. -/
theorem uploadRecord_idem (ra rb : Int) (r : MedicalRecord) :
    uploadRecord rb (uploadRecord ra r) = uploadRecord ra r :=
  uploadRecord_of_not_pending rb _ (uploadRecord_not_pending ra r)

/-- Mapping `uploadRecord` a second time over a list changes nothing. -/
theorem map_uploadRecord_map (ra rb : Int) (rs : List MedicalRecord) :
    (rs.map (uploadRecord ra)).map (uploadRecord rb) = rs.map (uploadRecord ra) := by
  induction rs with
  | nil => rfl
  | cons r rs ih => simp [List.map_cons, uploadRecord_idem, ih]

/-- After an upload pass no record counts as pending. -/
theorem countP_map_uploadRecord (rate : Int) (rs : List MedicalRecord) :
    (rs.map (uploadRecord rate)).countP (fun r => r.status == "pending") = 0 := by
  induction rs with
  | nil => rfl
  | cons r rs ih =>
    have hnp := uploadRecord_not_pending rate r
    simp [List.countP_cons, ih, hnp]

/-- C1: `uploadAllPending` transitions every record pending at call time to
`uploaded` with `bonusEarned` equal to the bonus rate current at that call,
returns the number of transitioned records, adds exactly `count × rate` to
the bonus total, is a no-op returning 0 when nothing is pending, a second
immediate call is a no-op, and a later rate change does not touch the
records (so `bonusEarned` keeps the rate of this call). -/
theorem uploadAllPending_spec (s : AppState) (c : Nat) (s' : AppState)
    (h : uploadAllPending s = (c, s')) :
    (∀ (i : Nat) (r : MedicalRecord), s.records[i]? = some r →
        r.status = "pending" →
        s'.records[i]? =
          some { r with status := "uploaded", bonusEarned := s.bonusRate }) ∧
    c = s.records.countP (fun r => r.status == "pending") ∧
    s'.bonus = s.bonus + (c : Int) * s.bonusRate ∧
    (s.records.countP (fun r => r.status == "pending") = 0 →
        c = 0 ∧ s'.bonus = s.bonus) ∧
    uploadAllPending s' = (0, s') ∧
    (∀ nr, (setBonusRate nr s').records = s'.records) := by
  simp only [uploadAllPending] at h
  obtain ⟨rfl, rfl⟩ := Prod.mk.injEq .. |>.mp h
  refine ⟨?_, rfl, ?_, ?_, ?_, fun nr => rfl⟩
  · intro i r hget hp
    simp [List.getElem?_map, hget, uploadRecord, hp]
  · by_cases hc : s.records.countP (fun r => r.status == "pending") = 0
    · simp [hc]
    · simp [hc, Nat.pos_of_ne_zero hc]
  · intro h0
    simp [h0]
  · simp [uploadAllPending, countP_map_uploadRecord, map_uploadRecord_map,
      uploadRecord_idem, uploadRecord_not_pending]

/-- A concrete pending record used by witnesses. -/
def exPending : MedicalRecord :=
  { id := "a1", patientName := "A", patientAge := 30,
    department := Department.CARDIOLOGY, observations := "",
    timestamp := 1, status := "pending", bonusEarned := 0 }

/-- A concrete already-uploaded record used by witnesses. -/
def exUploaded : MedicalRecord :=
  { id := "b2", patientName := "B", patientAge := 41,
    department := Department.NEUROLOGY, observations := "ok",
    timestamp := 2, status := "uploaded", bonusEarned := 20 }

/-- A concrete state with one pending and one uploaded record. -/
def exState : AppState :=
  { records := [exPending, exUploaded], bonus := 7, bonusRate := 50,
    theme := some "clinical", filter := { status := none, department := none } }

/-- Witness for C1 on a concrete two-record state. -/
theorem uploadAllPending_spec_witness :
    (uploadAllPending exState).2.records[0]? =
      some { exPending with status := "uploaded", bonusEarned := 50 } ∧
    (uploadAllPending exState).2.bonus =
      exState.bonus + ((uploadAllPending exState).1 : Int) * exState.bonusRate := by
  obtain ⟨h1, _, h3, _, _, _⟩ := uploadAllPending_spec exState _ _ rfl
  exact ⟨h1 0 exPending rfl rfl, h3⟩

/-- C10: `uploadAllPending` only touches `status` and `bonusEarned` of the
records that were pending and the bonus total: length and order of the list
are preserved, every record keeps its identity fields, records already
`uploaded` (more generally, not `pending`) are unchanged field-for-field,
and theme, filter and bonus rate are untouched. -/
theorem uploadAllPending_frame (s : AppState) (c : Nat) (s' : AppState)
    (h : uploadAllPending s = (c, s')) :
    s'.records.length = s.records.length ∧
    (∀ (i : Nat) (r : MedicalRecord), s.records[i]? = some r →
        ∃ r', s'.records[i]? = some r' ∧
          r'.id = r.id ∧ r'.patientName = r.patientName ∧
          r'.patientAge = r.patientAge ∧ r'.department = r.department ∧
          r'.observations = r.observations ∧ r'.timestamp = r.timestamp ∧
          (r.status = "uploaded" → r' = r) ∧
          (r.status ≠ "pending" → r' = r)) ∧
    s'.theme = s.theme ∧ s'.filter = s.filter ∧ s'.bonusRate = s.bonusRate := by
  simp only [uploadAllPending] at h
  obtain ⟨rfl, rfl⟩ := Prod.mk.injEq .. |>.mp h
  refine ⟨by simp, ?_, rfl, rfl, rfl⟩
  intro i r hget
  refine ⟨uploadRecord s.bonusRate r, by simp [List.getElem?_map, hget], ?_⟩
  by_cases hp : r.status = "pending"
  · simp [uploadRecord, hp]
  · simp [uploadRecord, hp]

/-- Witness for C10: the already-uploaded record of `exState` is unchanged
and the theme is untouched. -/
theorem uploadAllPending_frame_witness :
    (uploadAllPending exState).2.records[1]? = some exUploaded ∧
    (uploadAllPending exState).2.theme = exState.theme := by
  obtain ⟨_, hp, ht, _, _⟩ := uploadAllPending_frame exState _ _ rfl
  obtain ⟨r', hget, _, _, _, _, _, _, hup, _⟩ := hp 1 exUploaded rfl
  rw [hup rfl] at hget
  exact ⟨hget, ht⟩

/-- A sequence of `addRecord` calls, each given its own fresh id and its own
`Date.now()` reading. -/
def addAll (s : AppState) : List (String × Int × PartialRecord) → AppState
  | [] => s
  | i :: ins => addAll (addRecord i.1 i.2.1 i.2.2 s).2 ins

/-- The id of the record built by `addRecord` is the supplied fresh id. -/
theorem map_id_mk (ins : List (String × Int × PartialRecord)) :
    ins.map (fun i => (mkRecord i.1 i.2.1 i.2.2).id) = ins.map (fun i => i.1) := by
  induction ins with
  | nil => rfl
  | cons i ins ih => simp [ih, mkRecord]

/-- The record list after a sequence of `addRecord` calls is the new records
in reverse insertion order, in front of the old list. -/
theorem addAll_records (ins : List (String × Int × PartialRecord)) (s : AppState) :
    (addAll s ins).records =
      (ins.map (fun i => mkRecord i.1 i.2.1 i.2.2)).reverse ++ s.records := by
  induction ins generalizing s with
  | nil => rfl
  | cons i ins ih =>
    simp [addAll, ih, addRecord, List.reverse_cons, List.append_assoc]

/-- C5: after any sequence of `addRecord` calls from any state, the record
list is in strict reverse insertion order (most recently added first), and
when the supplied fresh ids are pairwise distinct and distinct from the ids
already present, every id in the list is unique. -/
theorem addRecord_seq_order (s : AppState) (ins : List (String × Int × PartialRecord)) :
    (addAll s ins).records =
      (ins.map (fun i => mkRecord i.1 i.2.1 i.2.2)).reverse ++ s.records ∧
    ((ins.map (fun i => i.1) ++ s.records.map (fun r => r.id)).Nodup →
      ((addAll s ins).records.map (fun r => r.id)).Nodup) := by
  refine ⟨addAll_records ins s, ?_⟩
  intro hnd
  rw [addAll_records ins s, List.map_append, List.map_reverse, List.map_map]
  rw [List.nodup_append] at hnd ⊢
  rw [List.nodup_reverse]
  have hm : (ins.map (fun i => mkRecord i.1 i.2.1 i.2.2)).map (fun r => r.id) =
      ins.map (fun i => i.1) := by
    rw [List.map_map]
    exact map_id_mk ins
  rw [List.map_map] at hm
  rw [hm]
  refine ⟨hnd.1, hnd.2.1, ?_⟩
  intro a ha hb
  exact hnd.2.2 (List.mem_reverse.mp ha) hb

/-- Witness for C5: two adds with distinct fresh ids onto the empty initial
state give unique ids in reverse insertion order. -/
theorem addRecord_seq_order_witness :
    (addAll initState [("a", 1, {}), ("b", 2, {})]).records =
      ([mkRecord "a" 1 {}, mkRecord "b" 2 {}]).reverse ++ initState.records ∧
    ((addAll initState [("a", 1, {}), ("b", 2, {})]).records.map
      (fun r => r.id)).Nodup := by
  obtain ⟨h1, h2⟩ := addRecord_seq_order initState [("a", 1, {}), ("b", 2, {})]
  exact ⟨h1, h2 (by simp [initState])⟩

/-- Sum of `bonusEarned` over a record list. -/
def sumBonusEarned : List MedicalRecord → Int
  | [] => 0
  | r :: rs => r.bonusEarned + sumBonusEarned rs

/-- The Application State Store operations named by the spec, with the
environment inputs of `addRecord` made explicit. -/
inductive StoreOp where
  | add : String → Int → PartialRecord → StoreOp
  | upload : StoreOp
  | clear : StoreOp
  | setRate : Int → StoreOp
deriving DecidableEq

/-- Apply one store operation to the state. -/
def applyOp (s : AppState) : StoreOp → AppState
  | .add newId now data => (addRecord newId now data s).2
  | .upload => (uploadAllPending s).2
  | .clear => clearAll s
  | .setRate r => setBonusRate r s

/-- Run a sequence of store operations from a state. -/
def runOps (s : AppState) (ops : List StoreOp) : AppState :=
  ops.foldl applyOp s

/-- Batch consistency, strengthened with the auxiliary fact that a pending
record carries no bonus yet. -/
def BonusInv (s : AppState) : Prop :=
  s.bonus = sumBonusEarned s.records ∧
  ∀ r ∈ s.records, r.status = "pending" → r.bonusEarned = 0

/-- An upload pass adds `count × rate` to the bonus sum, provided pending
records carried no bonus. -/
theorem sumBonusEarned_map_upload (rate : Int) (rs : List MedicalRecord)
    (h : ∀ r ∈ rs, r.status = "pending" → r.bonusEarned = 0) :
    sumBonusEarned (rs.map (uploadRecord rate)) =
      sumBonusEarned rs + (rs.countP (fun r => r.status == "pending") : Int) * rate := by
  induction rs with
  | nil => simp [sumBonusEarned]
  | cons r rs ih =>
    have hr := h r (by simp)
    have hrest : ∀ x ∈ rs, x.status = "pending" → x.bonusEarned = 0 :=
      fun x hx => h x (by simp [hx])
    by_cases hp : r.status = "pending"
    · have hu : uploadRecord rate r = { r with status := "uploaded", bonusEarned := rate } := by
        simp [uploadRecord, hp]
      simp only [List.map_cons, sumBonusEarned, hu, List.countP_cons, ih hrest, hr hp, hp]
      simp
      ring
    · have hu : uploadRecord rate r = r := uploadRecord_of_not_pending rate r hp
      simp only [List.map_cons, sumBonusEarned, hu, List.countP_cons, ih hrest, hp]
      simp [hp]
      ring

/-- `BonusInv` holds initially. -/
theorem BonusInv_initState : BonusInv initState := by
  constructor <;> simp [initState, BonusInv, sumBonusEarned]

/-- Every store operation other than `clear` preserves `BonusInv`. -/
theorem BonusInv_applyOp (s : AppState) (op : StoreOp) (hop : op ≠ .clear)
    (h : BonusInv s) : BonusInv (applyOp s op) := by
  obtain ⟨h1, h2⟩ := h
  cases op with
  | add newId now data =>
    refine ⟨?_, ?_⟩
    · simp [applyOp, addRecord, sumBonusEarned, mkRecord, h1]
    · intro r hr hp
      rcases List.mem_cons.mp hr with hnew | hold
      · subst hnew; rfl
      · exact h2 r hold hp
  | upload =>
    refine ⟨?_, ?_⟩
    · show (if _ > 0 then _ else _) = sumBonusEarned (s.records.map (uploadRecord s.bonusRate))
      rw [sumBonusEarned_map_upload s.bonusRate s.records h2]
      by_cases hc : s.records.countP (fun r => r.status == "pending") = 0
      · simp [hc, h1]
      · simp [hc, Nat.pos_of_ne_zero hc, h1]
    · intro r hr hp
      rcases List.mem_map.mp hr with ⟨x, _, rfl⟩
      exact absurd hp (uploadRecord_not_pending s.bonusRate x)
  | clear => exact absurd rfl hop
  | setRate r => exact ⟨h1, h2⟩

/-- `BonusInv` is preserved along any clear-free operation sequence. -/
theorem BonusInv_runOps (s : AppState) (ops : List StoreOp)
    (hops : ∀ op ∈ ops, op ≠ StoreOp.clear) (h : BonusInv s) :
    BonusInv (runOps s ops) := by
  induction ops generalizing s with
  | nil => exact h
  | cons op ops ih =>
    exact ih _ (fun o ho => hops o (by simp [ho]))
      (BonusInv_applyOp s op (hops op (by simp)) h)

/-- C2 counterexample: after `addRecord`, `uploadAllPending` and `clearAll`
from the initial state, the bonus total is 50 while the records list is
empty, so BonusTotal no longer equals the sum of `bonusEarned` over the
records: `clearAll` does not preserve the equality. -/
theorem bonus_invariant_counterexample :
    (runOps initState [StoreOp.add "a" 1 {}, StoreOp.upload, StoreOp.clear]).bonus = 50 ∧
    sumBonusEarned
      (runOps initState [StoreOp.add "a" 1 {}, StoreOp.upload, StoreOp.clear]).records = 0 ∧
    (runOps initState [StoreOp.add "a" 1 {}, StoreOp.upload, StoreOp.clear]).bonus ≠
      sumBonusEarned
        (runOps initState [StoreOp.add "a" 1 {}, StoreOp.upload, StoreOp.clear]).records := by
  refine ⟨by decide, by decide, by decide⟩

/-- C2 amended: in every state reachable from the initial state through
`addRecord`, `uploadAllPending` and `setBonusRate` (that is, every sequence
of store operations free of `clearAll`), BonusTotal equals the sum of
`bonusEarned` across the records; `clearAll` itself keeps BonusTotal and
discards the records, so it breaks the equality whenever the total is
nonzero. -/
theorem bonus_invariant_no_clear (ops : List StoreOp)
    (hops : ∀ op ∈ ops, op ≠ StoreOp.clear) :
    (runOps initState ops).bonus = sumBonusEarned (runOps initState ops).records ∧
    (∀ s : AppState, (clearAll s).bonus = s.bonus ∧ (clearAll s).records = []) :=
  ⟨(BonusInv_runOps initState ops hops BonusInv_initState).1,
    fun _ => ⟨rfl, rfl⟩⟩

/-- Witness for the amended C2 on a concrete clear-free sequence. -/
theorem bonus_invariant_no_clear_witness :
    (runOps initState [StoreOp.add "a" 1 {}, StoreOp.upload]).bonus =
      sumBonusEarned (runOps initState [StoreOp.add "a" 1 {}, StoreOp.upload]).records :=
  (bonus_invariant_no_clear [StoreOp.add "a" 1 {}, StoreOp.upload] (by decide)).1

/-- The spec reading of the filter: a record is kept iff it matches the
status constraint when that constraint is supplied and the department
constraint when that constraint is supplied (AND semantics). -/
def specKeepsRecord (f : FilterState) (r : MedicalRecord) : Bool :=
  (match f.status with
    | none => true
    | some v => r.status == v) &&
  (match f.department with
    | none => true
    | some v => r.department == v)

/-- `filteredView` as the spec words it: the subsequence of records
satisfying both optional constraints. -/
def specFilteredView (f : FilterState) (rs : List MedicalRecord) :
    List MedicalRecord :=
  rs.filter (specKeepsRecord f)

/-- Away from the degenerate empty-string constraint, the code predicate
agrees with the spec predicate. -/
theorem keepsRecord_eq_spec (f : FilterState) (r : MedicalRecord)
    (hs : f.status ≠ some "") (hd : f.department ≠ some "") :
    keepsRecord f r = specKeepsRecord f r := by
  rcases f with ⟨st, dp⟩
  have hs' : ∀ v, st = some v → v ≠ "" := by
    rintro v rfl h
    exact hs (by simp [h])
  have hd' : ∀ v, dp = some v → v ≠ "" := by
    rintro v rfl h
    exact hd (by simp [h])
  cases st with
  | none =>
    cases dp with
    | none => simp [keepsRecord, specKeepsRecord, jsOrStr]
    | some d =>
      have hdd : d ≠ "" := hd' d rfl
      by_cases hrd : r.department = d <;>
        simp [keepsRecord, specKeepsRecord, jsOrStr, hdd, hrd]
  | some v =>
    have hv : v ≠ "" := hs' v rfl
    cases dp with
    | none =>
      by_cases hr : r.status = v <;>
        simp [keepsRecord, specKeepsRecord, jsOrStr, hv, hr]
    | some d =>
      have hdd : d ≠ "" := hd' d rfl
      by_cases hr : r.status = v <;> by_cases hrd : r.department = d <;>
        simp [keepsRecord, specKeepsRecord, jsOrStr, hv, hdd, hr, hrd]

/-- C6 counterexample: a filter whose status constraint is the supplied
empty string keeps a pending record, although the record does not match the
constraint; the code treats a falsy constraint as unset, so `filteredView`
is not "exactly the records satisfying every supplied constraint". -/
theorem filteredView_counterexample :
    filteredRecords { status := some "", department := none } [exPending] =
      [exPending] ∧
    specFilteredView { status := some "", department := none } [exPending] = [] ∧
    filteredRecords { status := some "", department := none } [exPending] ≠
      specFilteredView { status := some "", department := none } [exPending] := by
  refine ⟨by decide, by decide, by decide⟩

/-- C6 amended: for every filter whose supplied constraints are non-empty
strings, `filteredView` returns exactly the subsequence of records matching
both constraints with AND semantics, preserves the list order, and with both
constraints unset returns the full list; a supplied empty-string constraint
is instead treated as unset. -/
theorem filteredView_spec (f : FilterState) (rs : List MedicalRecord)
    (hs : f.status ≠ some "") (hd : f.department ≠ some "") :
    filteredRecords f rs = specFilteredView f rs ∧
    (filteredRecords f rs).Sublist rs ∧
    (f.status = none → f.department = none → filteredRecords f rs = rs) := by
  refine ⟨?_, ?_, ?_⟩
  · unfold filteredRecords specFilteredView
    apply List.filter_congr
    intro r _
    exact keepsRecord_eq_spec f r hs hd
  · exact List.filter_sublist rs
  · intro h1 h2
    rcases f with ⟨st, dp⟩
    simp only at h1 h2
    subst h1; subst h2
    simp [filteredRecords, keepsRecord, jsOrStr]

/-- Witness for the amended C6 on a concrete status filter. -/
theorem filteredView_spec_witness :
    filteredRecords { status := some "pending", department := none }
        [exPending, exUploaded] =
      specFilteredView { status := some "pending", department := none }
        [exPending, exUploaded] :=
  (filteredView_spec { status := some "pending", department := none }
    [exPending, exUploaded] (by decide) (by decide)).1

/-- Evaluation of the `apply_filter` branch of the dispatch chain. -/
theorem dispatch_apply_filter (newId : String) (now : Int) (args : ToolArgs)
    (s : AppState) :
    dispatch newId now "apply_filter" args s =
      ("Filters applied.",
        { s with filter :=
          { status := if args.status = some "all" then none else args.status,
            department :=
              if args.department = some "all" then none else args.department } }) := by
  rfl

/-- C7: `apply_filter` replaces the stored filter in whole: a supplied
"all" maps the constraint to unset, any other supplied value becomes the
new constraint, a constraint not re-supplied is cleared, and the
confirmation is "Filters applied."; the rest of the state is untouched. -/
theorem apply_filter_spec (newId : String) (now : Int) (args : ToolArgs)
    (s : AppState) (res : String) (s' : AppState)
    (h : dispatch newId now "apply_filter" args s = (res, s')) :
    res = "Filters applied." ∧
    (args.status = some "all" → s'.filter.status = none) ∧
    (args.status = none → s'.filter.status = none) ∧
    (∀ v, v ≠ "all" → args.status = some v → s'.filter.status = some v) ∧
    (args.department = some "all" → s'.filter.department = none) ∧
    (args.department = none → s'.filter.department = none) ∧
    (∀ v, v ≠ "all" → args.department = some v → s'.filter.department = some v) ∧
    s'.records = s.records ∧ s'.bonus = s.bonus ∧ s'.bonusRate = s.bonusRate ∧
    s'.theme = s.theme := by
  rw [dispatch_apply_filter] at h
  obtain ⟨rfl, rfl⟩ := Prod.mk.injEq .. |>.mp h
  refine ⟨rfl, ?_, ?_, ?_, ?_, ?_, ?_, rfl, rfl, rfl, rfl⟩
  · intro h1; simp [h1]
  · intro h1; simp [h1]
  · intro v hv h1; simp [h1, hv]
  · intro h1; simp [h1]
  · intro h1; simp [h1]
  · intro v hv h1; simp [h1, hv]

/-- Witness for C7: "all" clears the status constraint, a department value
becomes the new constraint, on a concrete state whose previous filter had a
status constraint. -/
theorem apply_filter_spec_witness :
    (dispatch "i" 0 "apply_filter"
        { status := some "all", department := some "Cardiology" }
        { exState with
          filter := { status := some "pending", department := none } }).2.filter.status =
      none ∧
    (dispatch "i" 0 "apply_filter"
        { status := some "all", department := some "Cardiology" }
        { exState with
          filter := { status := some "pending", department := none } }).2.filter.department =
      some "Cardiology" ∧
    (dispatch "i" 0 "apply_filter"
        { status := some "all", department := some "Cardiology" }
        { exState with
          filter := { status := some "pending", department := none } }).1 =
      "Filters applied." := by
  obtain ⟨h1, h2, _, _, _, _, h7, _, _, _, _⟩ := apply_filter_spec "i" 0
    { status := some "all", department := some "Cardiology" }
    { exState with filter := { status := some "pending", department := none } }
    _ _ rfl
  exact ⟨h2 rfl, h7 "Cardiology" (by decide) rfl, h1⟩

/-- One inbound synthesized-audio chunk: the output clock reading
(`ctx.currentTime`) at the moment its message is handled, and the decoded
buffer's duration. -/
structure AudioChunk where
  arrival : ℚ
  duration : ℚ
deriving DecidableEq, Repr

/-- The audio branch of `onmessage` (src/App.tsx lines 215-227), iterated
over a sequence of chunks in delivery order: the cursor is first clamped to
`max(nextStartTime, ctx.currentTime)`, the chunk starts there, and the
cursor advances by the chunk's duration.  Returns the scheduled
(start, duration) pairs in order. -/
def scheduleChunks (nextStartTime : ℚ) : List AudioChunk → List (ℚ × ℚ)
  | [] => []
  | c :: cs =>
    let start := max nextStartTime c.arrival
    (start, c.duration) :: scheduleChunks (start + c.duration) cs

/-- Successive scheduled chunks never overlap backward: each start is at
least the previous start plus the previous duration. -/
theorem scheduleChunks_consecutive (cs : List AudioChunk) :
    ∀ (n0 : ℚ) (i : Nat) (s1 s2 : ℚ × ℚ),
      (scheduleChunks n0 cs)[i]? = some s1 →
      (scheduleChunks n0 cs)[i + 1]? = some s2 → s1.1 + s1.2 ≤ s2.1 := by
  induction cs with
  | nil =>
    intro n0 i s1 s2 h1 _
    simp [scheduleChunks] at h1
  | cons c cs ih =>
    intro n0 i s1 s2 h1 h2
    rw [show scheduleChunks n0 (c :: cs) =
      (max n0 c.arrival, c.duration) ::
        scheduleChunks (max n0 c.arrival + c.duration) cs from rfl] at h1 h2
    cases i with
    | zero =>
      rw [List.getElem?_cons_zero] at h1
      rw [List.getElem?_cons_succ] at h2
      obtain rfl : (max n0 c.arrival, c.duration) = s1 := by
        exact Option.some.inj h1
      cases cs with
      | nil => simp [scheduleChunks] at h2
      | cons c2 cs2 =>
        rw [show scheduleChunks (max n0 c.arrival + c.duration) (c2 :: cs2) =
          (max (max n0 c.arrival + c.duration) c2.arrival, c2.duration) ::
            scheduleChunks
              (max (max n0 c.arrival + c.duration) c2.arrival + c2.duration)
              cs2 from rfl] at h2
        rw [List.getElem?_cons_zero] at h2
        obtain rfl : (max (max n0 c.arrival + c.duration) c2.arrival, c2.duration) = s2 :=
          Option.some.inj h2
        exact le_max_left _ _
    | succ n =>
      rw [List.getElem?_cons_succ] at h1 h2
      exact ih _ n s1 s2 h1 h2

/-- C8: each inbound audio chunk is scheduled to start at
`max(nextScheduledTime, currentPlaybackClock)` and the cursor then advances
by that chunk's duration; consequently every pair of successive chunks
satisfies start₂ ≥ start₁ + duration₁, so the scheduled playbacks never
overlap. -/
theorem audio_scheduling_spec (n0 : ℚ) (cs : List AudioChunk) :
    (∀ (c : AudioChunk) (rest : List AudioChunk),
        scheduleChunks n0 (c :: rest) =
          (max n0 c.arrival, c.duration) ::
            scheduleChunks (max n0 c.arrival + c.duration) rest) ∧
    (∀ (i : Nat) (s1 s2 : ℚ × ℚ),
        (scheduleChunks n0 cs)[i]? = some s1 →
        (scheduleChunks n0 cs)[i + 1]? = some s2 →
        s1.1 + s1.2 ≤ s2.1) :=
  ⟨fun _ _ => rfl,
    fun i s1 s2 h1 h2 => scheduleChunks_consecutive cs n0 i s1 s2 h1 h2⟩

/-- Witness for C8: two half-second chunks that both arrive at clock 0 are
scheduled back to back without overlap. -/
theorem audio_scheduling_spec_witness :
    (scheduleChunks 0 [⟨0, 1/2⟩, ⟨0, 1/2⟩])[0]? = some (0, 1/2) ∧
    (scheduleChunks 0 [⟨0, 1/2⟩, ⟨0, 1/2⟩])[1]? = some (1/2, 1/2) ∧
    ((0:ℚ), (1/2:ℚ)).1 + ((0:ℚ), (1/2:ℚ)).2 ≤ ((1/2:ℚ), (1/2:ℚ)).1 := by
  have h1 : (scheduleChunks 0 [⟨0, 1/2⟩, ⟨0, 1/2⟩])[0]? = some (0, 1/2) := by
    norm_num [scheduleChunks, max_def]
  have h2 : (scheduleChunks 0 [⟨0, 1/2⟩, ⟨0, 1/2⟩])[1]? = some (1/2, 1/2) := by
    norm_num [scheduleChunks, max_def]
  exact ⟨h1, h2,
    (audio_scheduling_spec 0 [⟨0, 1/2⟩, ⟨0, 1/2⟩]).2 0 (0, 1/2) (1/2, 1/2) h1 h2⟩

/-- Modelled from the spec: `src/services/audioUtils.ts` (the `encode` and
`decode` imports of src/App.tsx line 5) is not part of the sources; the spec
describes `encode` as a deterministic reversible mapping of arbitrary bytes
to transport-safe text with base64 semantics.  The standard base64 alphabet
as a character list. -/
def ALPHABET : List Char :=
  ['A', 'B', 'C', 'D', 'E', 'F', 'G', 'H', 'I', 'J', 'K', 'L', 'M',
   'N', 'O', 'P', 'Q', 'R', 'S', 'T', 'U', 'V', 'W', 'X', 'Y', 'Z',
   'a', 'b', 'c', 'd', 'e', 'f', 'g', 'h', 'i', 'j', 'k', 'l', 'm',
   'n', 'o', 'p', 'q', 'r', 's', 't', 'u', 'v', 'w', 'x', 'y', 'z',
   '0', '1', '2', '3', '4', '5', '6', '7', '8', '9', '+', '/']

/-- The alphabet character of a six-bit value. -/
def sextetChar (n : Nat) : Char := ALPHABET.getD n 'A'

/-- Index of a character in a list, `none` when absent. -/
def lookupIdx (c : Char) : List Char → Option Nat
  | [] => none
  | a :: rest => if a = c then some 0 else (lookupIdx c rest).map (· + 1)

/-- The six-bit value of an alphabet character, `none` off the alphabet. -/
def charSextet (c : Char) : Option Nat := lookupIdx c ALPHABET

/-- Modelled from the spec: base64 encoding, three bytes into four alphabet
characters, with '=' padding for a trailing one- or two-byte group. -/
def encodeGroups : List Nat → List Char
  | a :: b :: c :: rest =>
    sextetChar (a / 4) :: sextetChar (a % 4 * 16 + b / 16) ::
      sextetChar (b % 16 * 4 + c / 64) :: sextetChar (c % 64) ::
        encodeGroups rest
  | [a, b] => [sextetChar (a / 4), sextetChar (a % 4 * 16 + b / 16),
      sextetChar (b % 16 * 4), '=']
  | [a] => [sextetChar (a / 4), sextetChar (a % 4 * 16), '=', '=']
  | [] => []

/-- Modelled from the spec: `encode(bytes) -> text`. -/
def encode (bytes : List Nat) : String := String.mk (encodeGroups bytes)

/-- Modelled from the spec: base64 decoding of four characters at a time;
`none` models `FormatError` (character off the alphabet, bad length,
misplaced padding, or nonzero discarded padding bits). -/
def decodeGroups : List Char → Option (List Nat)
  | [] => some []
  | c1 :: c2 :: c3 :: c4 :: rest =>
    (charSextet c1).bind fun s1 =>
    (charSextet c2).bind fun s2 =>
    if c3 = '=' then
      if c4 = '=' ∧ rest = [] ∧ s2 % 16 = 0 then
        some [s1 * 4 + s2 / 16]
      else none
    else
      (charSextet c3).bind fun s3 =>
      if c4 = '=' then
        if rest = [] ∧ s3 % 4 = 0 then
          some [s1 * 4 + s2 / 16, s2 % 16 * 16 + s3 / 4]
        else none
      else
        (charSextet c4).bind fun s4 =>
        (decodeGroups rest).map fun tail =>
          (s1 * 4 + s2 / 16) :: (s2 % 16 * 16 + s3 / 4) ::
            (s3 % 4 * 64 + s4) :: tail
  | _ => none

/-- Modelled from the spec: `decode(text) -> bytes`, `none` = FormatError. -/
def decode (s : String) : Option (List Nat) := decodeGroups s.data

/-- Decoding an alphabet character recovers its six-bit value. -/
theorem charSextet_sextetChar : ∀ n < 64, charSextet (sextetChar n) = some n := by
  decide

/-- No alphabet character is the padding character. -/
theorem sextetChar_ne_pad : ∀ n < 64, sextetChar n ≠ '=' := by
  decide

/-- Decoding an encoded byte list recovers it. -/
theorem decodeGroups_encodeGroups : ∀ (bs : List Nat), (∀ b ∈ bs, b < 256) →
    decodeGroups (encodeGroups bs) = some bs := by
  intro bs
  induction bs using encodeGroups.induct with
  | case1 a b c rest ih =>
    intro h
    have ha : a < 256 := h a (by simp)
    have hb : b < 256 := h b (by simp)
    have hc : c < 256 := h c (by simp)
    have hrest : ∀ x ∈ rest, x < 256 := fun x hx => h x (by simp [hx])
    have e1 := charSextet_sextetChar (a / 4) (by omega)
    have e2 := charSextet_sextetChar (a % 4 * 16 + b / 16) (by omega)
    have e3 := charSextet_sextetChar (b % 16 * 4 + c / 64) (by omega)
    have e4 := charSextet_sextetChar (c % 64) (by omega)
    have n3 := sextetChar_ne_pad (b % 16 * 4 + c / 64) (by omega)
    have n4 := sextetChar_ne_pad (c % 64) (by omega)
    simp only [encodeGroups, decodeGroups, e1, e2, e3, e4, Option.some_bind,
      if_neg n3, if_neg n4, ih hrest, Option.map_some']
    simp only [Option.some.injEq, List.cons.injEq]
    refine ⟨by omega, by omega, by omega, trivial⟩
  | case2 a b =>
    intro h
    have ha : a < 256 := h a (by simp)
    have hb : b < 256 := h b (by simp)
    have e1 := charSextet_sextetChar (a / 4) (by omega)
    have e2 := charSextet_sextetChar (a % 4 * 16 + b / 16) (by omega)
    have e3 := charSextet_sextetChar (b % 16 * 4) (by omega)
    have n3 := sextetChar_ne_pad (b % 16 * 4) (by omega)
    have hm : b % 16 * 4 % 4 = 0 := by omega
    simp only [encodeGroups, decodeGroups, e1, e2, e3, Option.some_bind,
      if_neg n3]
    simp [hm]
    constructor <;> omega
  | case3 a =>
    intro h
    have ha : a < 256 := h a (by simp)
    have e1 := charSextet_sextetChar (a / 4) (by omega)
    have e2 := charSextet_sextetChar (a % 4 * 16) (by omega)
    have hm : a % 4 * 16 % 16 = 0 := by omega
    simp only [encodeGroups, decodeGroups, e1, e2, Option.some_bind]
    simp [hm]
    omega
  | case4 =>
    intro _
    rfl

/-- A successful `lookupIdx` returns an in-range index pointing at the
looked-up character. -/
theorem lookupIdx_some (c : Char) : ∀ (l : List Char) (n : Nat),
    lookupIdx c l = some n → n < l.length ∧ l.getD n 'A' = c := by
  intro l
  induction l with
  | nil =>
    intro n h
    simp [lookupIdx] at h
  | cons a rest ih =>
    intro n h
    simp only [lookupIdx] at h
    by_cases hac : a = c
    · rw [if_pos hac] at h
      obtain rfl : (0 : Nat) = n := Option.some.inj h
      exact ⟨by simp, hac⟩
    · rw [if_neg hac] at h
      cases hm : lookupIdx c rest with
      | none =>
        rw [hm] at h
        simp at h
      | some m =>
        rw [hm] at h
        simp only [Option.map_some'] at h
        obtain rfl : m + 1 = n := Option.some.inj h
        obtain ⟨h1, h2⟩ := ih m hm
        constructor
        · simp
          omega
        · simpa using h2

/-- A successful `charSextet` yields a six-bit value whose alphabet
character is the input character. -/
theorem charSextet_some (c : Char) (n : Nat) (h : charSextet c = some n) :
    n < 64 ∧ sextetChar n = c := by
  obtain ⟨h1, h2⟩ := lookupIdx_some c ALPHABET n h
  exact ⟨h1, h2⟩

/-- A successful decode yields in-range bytes that encode back to exactly
the input text. -/
theorem encodeGroups_decodeGroups : ∀ (cs : List Char) (bs : List Nat),
    decodeGroups cs = some bs → (∀ b ∈ bs, b < 256) ∧ encodeGroups bs = cs := by
  intro cs
  induction cs using decodeGroups.induct with
  | case1 =>
    intro bs h
    obtain rfl : [] = bs := Option.some.inj h
    exact ⟨by simp, rfl⟩
  | case2 c1 c2 c3 c4 rest ih =>
    intro bs h
    simp only [decodeGroups] at h
    cases hc1 : charSextet c1 with
    | none =>
      rw [hc1] at h
      simp at h
    | some s1 =>
      rw [hc1] at h
      simp only [Option.some_bind] at h
      cases hc2 : charSextet c2 with
      | none =>
        rw [hc2] at h
        simp at h
      | some s2 =>
        rw [hc2] at h
        simp only [Option.some_bind] at h
        obtain ⟨hs1lt, hc1e⟩ := charSextet_some c1 s1 hc1
        obtain ⟨hs2lt, hc2e⟩ := charSextet_some c2 s2 hc2
        by_cases h3 : c3 = '='
        · rw [if_pos h3] at h
          by_cases hcond : c4 = '=' ∧ rest = [] ∧ s2 % 16 = 0
          · rw [if_pos hcond] at h
            obtain ⟨h4, hrest, hs2m⟩ := hcond
            obtain rfl : [s1 * 4 + s2 / 16] = bs := Option.some.inj h
            subst h3
            subst h4
            subst hrest
            constructor
            · intro x hx
              simp at hx
              subst hx
              omega
            · have q1 : (s1 * 4 + s2 / 16) / 4 = s1 := by omega
              have q2 : (s1 * 4 + s2 / 16) % 4 * 16 = s2 := by omega
              simp only [encodeGroups, q1, q2, hc1e, hc2e]
          · rw [if_neg hcond] at h
            exact absurd h (by simp)
        · rw [if_neg h3] at h
          cases hc3 : charSextet c3 with
          | none =>
            rw [hc3] at h
            simp at h
          | some s3 =>
            rw [hc3] at h
            simp only [Option.some_bind] at h
            obtain ⟨hs3lt, hc3e⟩ := charSextet_some c3 s3 hc3
            by_cases h4 : c4 = '='
            · rw [if_pos h4] at h
              by_cases hcond : rest = [] ∧ s3 % 4 = 0
              · rw [if_pos hcond] at h
                obtain ⟨hrest, hs3m⟩ := hcond
                obtain rfl : [s1 * 4 + s2 / 16, s2 % 16 * 16 + s3 / 4] = bs :=
                  Option.some.inj h
                subst h4
                subst hrest
                constructor
                · intro x hx
                  simp at hx
                  rcases hx with hx | hx <;> (subst hx; omega)
                · have q1 : (s1 * 4 + s2 / 16) / 4 = s1 := by omega
                  have q2 : (s1 * 4 + s2 / 16) % 4 * 16 +
                      (s2 % 16 * 16 + s3 / 4) / 16 = s2 := by omega
                  have q3 : (s2 % 16 * 16 + s3 / 4) % 16 * 4 = s3 := by omega
                  simp only [encodeGroups, q1, q2, q3, hc1e, hc2e, hc3e]
              · rw [if_neg hcond] at h
                exact absurd h (by simp)
            · rw [if_neg h4] at h
              cases hc4 : charSextet c4 with
              | none =>
                rw [hc4] at h
                simp at h
              | some s4 =>
                rw [hc4] at h
                simp only [Option.some_bind] at h
                obtain ⟨hs4lt, hc4e⟩ := charSextet_some c4 s4 hc4
                cases hrec : decodeGroups rest with
                | none =>
                  rw [hrec] at h
                  simp at h
                | some tail =>
                  rw [hrec] at h
                  simp only [Option.map_some'] at h
                  obtain rfl := Option.some.inj h
                  obtain ⟨htlt, htenc⟩ := ih tail hrec
                  constructor
                  · intro x hx
                    simp only [List.mem_cons] at hx
                    rcases hx with hx | hx | hx | hx
                    · subst hx; omega
                    · subst hx; omega
                    · subst hx; omega
                    · exact htlt x hx
                  · have q1 : (s1 * 4 + s2 / 16) / 4 = s1 := by omega
                    have q2 : (s1 * 4 + s2 / 16) % 4 * 16 +
                        (s2 % 16 * 16 + s3 / 4) / 16 = s2 := by omega
                    have q3 : (s2 % 16 * 16 + s3 / 4) % 16 * 4 +
                        (s3 % 4 * 64 + s4) / 64 = s3 := by omega
                    have q4 : (s3 % 4 * 64 + s4) % 64 = s4 := by omega
                    simp only [encodeGroups, q1, q2, q3, q4, hc1e, hc2e, hc3e,
                      hc4e, htenc]
  | case3 cs h1 h2 =>
    intro bs h
    simp [decodeGroups] at h

/-- C9: `decode (encode bytes)` recovers every byte buffer (of any length,
including 0 and 1), and `decode` fails (with FormatError, modelled as
`none`) exactly on the strings that are not the encoding of any byte
buffer, i.e. exactly on text malformed with respect to the transport
alphabet and padding. -/
theorem encode_decode_spec :
    (∀ bs : List Nat, (∀ b ∈ bs, b < 256) → decode (encode bs) = some bs) ∧
    (∀ s : String, decode s = none ↔
      ¬∃ bs : List Nat, (∀ b ∈ bs, b < 256) ∧ encode bs = s) := by
  constructor
  · intro bs h
    exact decodeGroups_encodeGroups bs h
  · intro s
    constructor
    · rintro hnone ⟨bs, hval, rfl⟩
      rw [show decode (encode bs) = decodeGroups (encodeGroups bs) from rfl,
        decodeGroups_encodeGroups bs hval] at hnone
      exact Option.noConfusion hnone
    · intro hne
      cases hd : decode s with
      | none => rfl
      | some bs =>
        exfalso
        apply hne
        obtain ⟨hval, henc⟩ := encodeGroups_decodeGroups s.data bs hd
        exact ⟨bs, hval, by rw [encode, henc]⟩

/-- Witness for C9: round trips at lengths 0, 1 and 3, and a rejected
malformed input. -/
theorem encode_decode_spec_witness :
    decode (encode []) = some [] ∧
    decode (encode [7]) = some [7] ∧
    decode (encode [7, 200, 31]) = some [7, 200, 31] ∧
    decode "A!!!" = none := by
  refine ⟨encode_decode_spec.1 [] (by decide),
    encode_decode_spec.1 [7] (by decide),
    encode_decode_spec.1 [7, 200, 31] (by decide), by decide⟩
